import Mathlib

/-!
Verification of the rest_bot streaming market-data client core.

Each definition below is a shallow embedding of a function of the Python
source, named after it.  Machine floats that only ever hold exact decimal
prices and timestamps are modelled as rationals; wall-clock instants are
explicit parameters.  Theorems `C1` .. `C10` settle the frozen claims.
-/

/- ## BarWindow: modules/indicator.py, IndicatorCalculator.update (lines 20-26)

`update` appends `new_row` to the frame (`pd.concat`) and, when the length
exceeds 200, keeps only the last 200 rows (`self.df.iloc[-200:]`).  Rows are
abstract: the column renaming and the indicator recompute (`run_all`) touch
columns, never the number or order of rows. -/

namespace IndicatorCalculator

def update {α : Type} (df : List α) (new_row : α) : List α :=
  let df1 := df ++ [new_row]
  if df1.length > 200 then df1.drop (df1.length - 200) else df1

end IndicatorCalculator

/-- The last `n` elements of a list, in order (what `iloc[-n:]` keeps). -/
def lastN {α : Type} (n : Nat) (l : List α) : List α :=
  l.drop (l.length - n)

theorem lastN_length {α : Type} (n : Nat) (l : List α) :
    (lastN n l).length = min n l.length := by
  unfold lastN
  rw [List.length_drop]
  omega

theorem update_eq_lastN {α : Type} (df : List α) (r : α) :
    IndicatorCalculator.update df r = lastN 200 (df ++ [r]) := by
  show (if (df ++ [r]).length > 200
        then (df ++ [r]).drop ((df ++ [r]).length - 200)
        else df ++ [r]) = lastN 200 (df ++ [r])
  unfold lastN
  by_cases h : (df ++ [r]).length > 200
  · rw [if_pos h]
  · rw [if_neg h]
    have h0 : (df ++ [r]).length - 200 = 0 := by omega
    rw [h0, List.drop_zero]

theorem lastN_append {α : Type} (n : Nat) (x y : List α) :
    lastN n x ++ y = (x ++ y).drop (x.length - n) := by
  unfold lastN
  rw [List.drop_append_of_le_length (Nat.sub_le x.length n)]

theorem lastN_append_lastN {α : Type} (n : Nat) (x y : List α) :
    lastN n (lastN n x ++ y) = lastN n (x ++ y) := by
  rw [lastN_append]
  unfold lastN
  rw [List.drop_drop]
  congr 1
  rw [List.length_drop]
  simp only [List.length_append]
  omega

theorem foldl_update_eq_lastN {α : Type} (rows : List α) (init : List α)
    (h : init.length ≤ 200) :
    List.foldl IndicatorCalculator.update init rows = lastN 200 (init ++ rows) := by
  induction rows generalizing init with
  | nil =>
      unfold lastN
      have h0 : (init ++ []).length - 200 = 0 := by
        simp only [List.append_nil]
        omega
      rw [h0, List.drop_zero, List.append_nil, List.foldl_nil]
  | cons r rest ih =>
      simp only [List.foldl_cons]
      rw [ih (IndicatorCalculator.update init r)
            (by rw [update_eq_lastN, lastN_length]; omega)]
      rw [update_eq_lastN, lastN_append_lastN]
      simp

/- ## Reconnect backoff: modules/websocket_client_real_time.py,
   WebSocketClient.run (lines 109-121) and _connect_once (lines 123-151)

`run` keeps a local `backoff`, initially 1.  Each loop iteration awaits
`_connect_once()`; when that call returns normally the loop sets
`backoff = 1`, and only when it raises is `backoff` left alone.  The loop
then sleeps `backoff` seconds and sets `backoff = min(backoff * 2, 30)`.

`_connect_once` wraps its entire body — the `websockets.connect` handshake,
the subscription replay and the keep-alive wait — in
`try: ... except Exception: log` (lines 125-147), so it returns normally on
every outcome, a failed handshake included. -/

/-- Outcome of one `_connect_once` attempt as seen from outside. -/
inductive AttemptOutcome where
  | connectFailed
  | sessionLiveThenDropped
deriving DecidableEq, Repr

/-- Whether `_connect_once` raises back into `run` for a given outcome:
it never does, because its `except Exception` clause catches everything. -/
def connectOnceRaises : AttemptOutcome → Bool := fun _ => false

/-- The successive delays (in seconds) slept by `WebSocketClient.run`,
given the outcome of each connection attempt and the current `backoff`
value; no stop is requested during the sequence. -/
def runDelays : List AttemptOutcome → Nat → List Nat
  | [], _ => []
  | o :: rest, backoff =>
    let b := if connectOnceRaises o then backoff else 1
    b :: runDelays rest (min (b * 2) 30)

/-- The delay sequence the claim describes: doubling from 1, capped at 30. -/
def claimedBackoffDelays : Nat → Nat → List Nat
  | 0, _ => []
  | n + 1, backoff => backoff :: claimedBackoffDelays n (min (backoff * 2) 30)

/- ## Subscription replay: modules/websocket_client_real_time.py,
   WebSocketClient.subscribe_all (lines 191-223)

For each symbol the loop sends the depth subscription message, then for
each timeframe that has a WS code sends the kbar subscription message and
sleeps 0.1 s; a timeframe without a WS code is skipped with no sleep
(`continue`).  There is no sleep between the depth send and the first kbar
send.  Time is counted in units of 100 ms; each send is instantaneous and
`asyncio.sleep(0.1)` advances the clock by one unit. -/

structure SubMsg where
  action : String
  channel : String
  pair : String
  kbar : Option String := none
  depth : Option Nat := none
deriving DecidableEq, Repr

/-- The depth subscription message built at lines 195-200 (its
`subscribe` field is named `channel` here). -/
def depthMsg (symbol : String) (depth_level : Nat) : SubMsg :=
  { action := "subscribe", channel := "depth", pair := symbol, depth := some depth_level }

/-- The kbar subscription message built at lines 213-218. -/
def kbarMsg (symbol : String) (ws_tf : String) : SubMsg :=
  { action := "subscribe", channel := "kbar", pair := symbol, kbar := some ws_tf }

/-- The inner `for tf in self.timeframes` loop (lines 207-223): returns the
timestamped kbar sends together with the clock after the loop. -/
def subKlines (symbol : String) (timeframe_mapping : String → Option String) :
    List String → Nat → List (SubMsg × Nat) × Nat
  | [], t => ([], t)
  | tf :: rest, t =>
    match timeframe_mapping tf with
    | none => subKlines symbol timeframe_mapping rest t
    | some ws_tf =>
      let r := subKlines symbol timeframe_mapping rest (t + 1)
      ((kbarMsg symbol ws_tf, t) :: r.1, r.2)

/-- `WebSocketClient.subscribe_all`: the timestamped sequence of control
sends it performs, starting at clock `t`. -/
def subscribe_all (timeframes : List String) (timeframe_mapping : String → Option String)
    (depth_level : Nat) : List String → Nat → List (SubMsg × Nat)
  | [], _ => []
  | symbol :: rest, t =>
    let r := subKlines symbol timeframe_mapping timeframes t
    (depthMsg symbol depth_level, t) :: r.1
      ++ subscribe_all timeframes timeframe_mapping depth_level rest r.2

/-- Successive sends linked by: the next send happens exactly one pacing
unit (100 ms) later when the earlier send is a kbar subscription, and at
the same instant otherwise. -/
def pacingStep (a b : SubMsg × Nat) : Prop :=
  b.2 = a.2 + (if a.1.channel = "kbar" then 1 else 0)

instance : DecidableRel pacingStep := fun a b =>
  inferInstanceAs (Decidable (b.2 = a.2 + (if a.1.channel = "kbar" then 1 else 0)))

/-- The ≥100 ms spacing the claim asserts for every successive pair. -/
def spaced (evs : List (SubMsg × Nat)) : Prop :=
  List.Chain' (fun a b => a.2 + 1 ≤ b.2) evs

instance : Decidable (spaced evs) :=
  inferInstanceAs (Decidable (List.Chain' (fun (a b : SubMsg × Nat) => a.2 + 1 ≤ b.2) evs))


/-- A timestamped send trace runs from clock `t` to clock `t1`, each kbar
send advancing the clock by one pacing unit and every other send by none. -/
def linkedTrace : Nat → List (SubMsg × Nat) → Nat → Prop
  | t, [], t1 => t1 = t
  | t, e :: es, t1 =>
      e.2 = t ∧ linkedTrace (t + (if e.1.channel = "kbar" then 1 else 0)) es t1

theorem linkedTrace_append {t t1 t2 : Nat} {evs1 evs2 : List (SubMsg × Nat)}
    (h1 : linkedTrace t evs1 t1) (h2 : linkedTrace t1 evs2 t2) :
    linkedTrace t (evs1 ++ evs2) t2 := by
  induction evs1 generalizing t with
  | nil =>
      simp only [linkedTrace] at h1
      rw [List.nil_append, ← h1]
      exact h2
  | cons e es ih =>
      obtain ⟨he, hrest⟩ := h1
      exact ⟨he, ih hrest⟩

theorem linkedTrace_chain {t t1 : Nat} {evs : List (SubMsg × Nat)}
    (h : linkedTrace t evs t1) : List.Chain' pacingStep evs := by
  induction evs generalizing t with
  | nil => simp
  | cons e es ih =>
      obtain ⟨he, hrest⟩ := h
      refine List.Chain'.cons' (ih hrest) ?_
      intro y hy
      cases es with
      | nil => simp at hy
      | cons e2 es2 =>
          simp only [List.head?, Option.mem_def, Option.some.injEq] at hy
          subst hy
          obtain ⟨he2, _⟩ := hrest
          unfold pacingStep
          rw [he2, he]

theorem subKlines_linked (s : String) (m : String → Option String) :
    ∀ (tfs : List String) (t : Nat),
      linkedTrace t (subKlines s m tfs t).1 (subKlines s m tfs t).2 := by
  intro tfs
  induction tfs with
  | nil =>
      intro t
      simp [subKlines, linkedTrace]
  | cons tf rest ih =>
      intro t
      unfold subKlines
      cases hm : m tf with
      | none => exact ih t
      | some w =>
          refine ⟨rfl, ?_⟩
          have hk : (kbarMsg s w).channel = "kbar" := rfl
          simpa [hk] using ih (t + 1)

theorem subKlines_map_fst (s : String) (m : String → Option String) :
    ∀ (tfs : List String) (t : Nat),
      (subKlines s m tfs t).1.map Prod.fst
        = tfs.filterMap (fun tf => (m tf).map (kbarMsg s)) := by
  intro tfs
  induction tfs with
  | nil => intro t; rfl
  | cons tf rest ih =>
      intro t
      unfold subKlines
      cases hm : m tf with
      | none => simp [hm, ih t]
      | some w => simp [hm, ih (t + 1)]

theorem subscribe_all_linked (tfs : List String) (m : String → Option String) (d : Nat) :
    ∀ (syms : List String) (t : Nat),
      ∃ t1, linkedTrace t (subscribe_all tfs m d syms t) t1 := by
  intro syms
  induction syms with
  | nil =>
      intro t
      exact ⟨t, rfl⟩
  | cons s rest ih =>
      intro t
      obtain ⟨t2, h2⟩ := ih (subKlines s m tfs t).2
      refine ⟨t2, ?_⟩
      unfold subscribe_all
      refine ⟨rfl, ?_⟩
      have hd : (depthMsg s d).channel = "depth" := rfl
      simp only [hd, if_neg (by decide : ¬ ("depth" = "kbar")), Nat.add_zero]
      exact linkedTrace_append (subKlines_linked s m tfs t) h2

/-- C1.  The claim says the reconnect delays of `WebSocketClient.run` form
1, 2, 4, 8, 16, 30, 30, … when no attempt reaches Live and no stop is
requested.  The code disagrees: `_connect_once` catches every exception
itself and returns normally, so `run` resets `backoff` to 1 after every
attempt — failed ones included — and sleeps 1 s before each retry.  Three
consecutive failed connection attempts sleep 1, 1, 1, not the claimed
1, 2, 4. -/
theorem backoff_reset_on_failure_bug :
    runDelays [.connectFailed, .connectFailed, .connectFailed] 1 = [1, 1, 1]
      ∧ claimedBackoffDelays 3 1 = [1, 2, 4]
      ∧ ([1, 1, 1] : List Nat) ≠ [1, 2, 4] := by
  refine ⟨rfl, rfl, ?_⟩
  decide

/-- C2 (as stated, refuted).  With one symbol and one mapped timeframe,
`subscribe_all` sends the depth subscription and the first kbar
subscription at the same instant: the trace is not ≥100 ms spaced. -/
theorem subscribe_all_unspaced :
    subscribe_all ["1m"] (fun tf => if tf = "1m" then some "1min" else none) 50 ["eth_btc"] 0
      = [(depthMsg "eth_btc" 50, 0), (kbarMsg "eth_btc" "1min", 0)]
    ∧ ¬ spaced
        (subscribe_all ["1m"] (fun tf => if tf = "1m" then some "1min" else none) 50 ["eth_btc"] 0) := by
  refine ⟨rfl, ?_⟩
  intro hsp
  have h : subscribe_all ["1m"] (fun tf => if tf = "1m" then some "1min" else none) 50 ["eth_btc"] 0
      = [(depthMsg "eth_btc" 50, 0), (kbarMsg "eth_btc" "1min", 0)] := rfl
  rw [h] at hsp
  unfold spaced at hsp
  rw [List.chain'_cons] at hsp
  exact absurd hsp.1 (by simp)

/-- C2 (amended).  After every (re)connect `subscribe_all` sends, per
symbol, exactly one depth subscription followed by one kbar subscription
per timeframe that has a WS code, each subscription exactly once; the
clock gap between successive sends is exactly one 100 ms pacing unit
whenever the earlier send is a kbar subscription, and zero when it is a
depth subscription (the depth send is immediately followed by the first
kbar send). -/
theorem subscribe_all_two_phase_paced (symbols timeframes : List String)
    (m : String → Option String) (d t : Nat) :
    (subscribe_all timeframes m d symbols t).map Prod.fst
      = symbols.flatMap
          (fun s => depthMsg s d :: timeframes.filterMap (fun tf => (m tf).map (kbarMsg s)))
    ∧ List.Chain' pacingStep (subscribe_all timeframes m d symbols t) := by
  constructor
  · induction symbols generalizing t with
    | nil => rfl
    | cons s rest ih =>
        unfold subscribe_all
        simp only [List.map_cons, List.map_append, List.flatMap_cons]
        rw [subKlines_map_fst, ih]
  · obtain ⟨t1, h⟩ := subscribe_all_linked timeframes m d symbols t
    exact linkedTrace_chain h

/-- C5.  Starting from any window of at most 200 bars (the prefill fetches
at most 200), every sequence of `IndicatorCalculator.update` appends keeps
the window at no more than 200 bars and leaves exactly the most recent
at-most-200 bars in arrival order — the oldest bars are the ones evicted.
Taking `rows` to be any prefix of the arrival sequence gives the bound
after each individual update. -/
theorem barWindow_cap_fifo {α : Type} (init rows : List α) (h : init.length ≤ 200) :
    (List.foldl IndicatorCalculator.update init rows).length ≤ 200
    ∧ List.foldl IndicatorCalculator.update init rows = lastN 200 (init ++ rows) := by
  refine ⟨?_, foldl_update_eq_lastN rows init h⟩
  rw [foldl_update_eq_lastN rows init h, lastN_length]
  omega

/-- C5 witness: a window seeded with 2 bars and fed 3 more. -/
theorem barWindow_cap_fifo_witness :
    ([0, 1] : List Nat).length ≤ 200
    ∧ (List.foldl IndicatorCalculator.update ([0, 1] : List Nat) [2, 3, 4]).length ≤ 200
    ∧ List.foldl IndicatorCalculator.update ([0, 1] : List Nat) [2, 3, 4]
        = lastN 200 ([0, 1] ++ [2, 3, 4]) :=
  ⟨by decide, (barWindow_cap_fifo [0, 1] [2, 3, 4] (by decide)).1,
    (barWindow_cap_fifo [0, 1] [2, 3, 4] (by decide)).2⟩

/- ## Order lifecycle: modules/trader.py, Trader._monitor_order (lines 116-151)
   and models/trade_outcome.py

The monitor reads the order's metadata from `self._open[order_id]`, then
polls `get_order_info` every `poll_every` seconds.  A status outside
{"filled", "cancelled", "partial"} is `continue`d past; on the first
terminal status it computes the exit price and the result, publishes one
`TradeOutcome` on topic "trade_outcome", pops the order from `self._open`
and returns.  Prices are exact rationals; the wall clock at poll tick `k`
is the explicit `clock k`. -/

/-- `self._open[order_id]` metadata (trader.py lines 105-110). -/
structure OrderMeta where
  symbol : String
  side : String
  entry : Rat
  signal_id : Int
deriving DecidableEq, Repr

/-- One `get_order_info` response: its `status`, and its `price` /
`avg_price` fields (`none` = key absent, `info.get` then defaults to 0.0). -/
structure PollInfo where
  status : String
  price : Option Rat := none
  avg_price : Option Rat := none
deriving DecidableEq, Repr

/-- models/trade_outcome.py: the TradeOutcome dataclass (`exit` is named
`exit_price` here). -/
structure TradeOutcome where
  signal_id : Int
  symbol : String
  side : String
  entry : Rat
  exit_price : Rat
  closed_at : Int
  result : String
deriving DecidableEq, Repr

/-- `status not in {"filled", "cancelled", "partial"}` is retried
(trader.py line 124). -/
def isTerminal (status : String) : Bool :=
  status = "filled" || status = "cancelled" || status = "partial"

/-- `float(info.get("price", 0.0) or info.get("avg_price", 0.0))`
(line 126): `or` falls through to `avg_price` when `price` is missing or
0.0 (falsy). -/
def exitPx (info : PollInfo) : Rat :=
  let p := info.price.getD 0
  if p ≠ 0 then p else info.avg_price.getD 0

/-- Lines 127-136: SUCCESS iff a buy exited above entry or a sell exited
below entry, else FAILURE. -/
def outcomeResult (side : String) (entry exit_px : Rat) : String :=
  if (side = "buy" ∧ exit_px > entry) ∨ (side = "sell" ∧ exit_px < entry)
  then "SUCCESS" else "FAILURE"

/-- Observable actions of a monitor: an EventBus publish, or popping the
order from the pending map. -/
inductive MonAction where
  | publishOutcome (topic : String) (o : TradeOutcome)
  | popPending (order_id : String)
deriving DecidableEq, Repr

/-- The poll loop of `_monitor_order` (lines 120-151), with metadata
already read: processes responses in order, skipping non-terminal ones;
on the first terminal response it publishes the outcome, pops the order
and returns.  A finite poll list with no terminal status means the loop
is still running and has performed no action. -/
def monitorLoop (meta : OrderMeta) (order_id : String) (clock : Nat → Int) :
    List PollInfo → Nat → List MonAction
  | [], _ => []
  | info :: rest, k =>
    if isTerminal info.status then
      let ex := exitPx info
      [MonAction.publishOutcome "trade_outcome"
        { signal_id := meta.signal_id, symbol := meta.symbol, side := meta.side,
          entry := meta.entry, exit_price := ex, closed_at := clock k,
          result := outcomeResult meta.side meta.entry ex },
       MonAction.popPending order_id]
    else monitorLoop meta order_id clock rest (k + 1)

/-- `Trader._monitor_order`: reads `self._open[order_id]` (a missing key
raises KeyError before any poll) and runs the poll loop. -/
def monitor_order (pending : List (String × OrderMeta)) (order_id : String)
    (clock : Nat → Int) (polls : List PollInfo) : Option (List MonAction) :=
  match pending.lookup order_id with
  | none => none
  | some meta => some (monitorLoop meta order_id clock polls 0)

/-- Effect of a monitor action on the pending map: a publish leaves it
alone; `self._open.pop(order_id, None)` removes the entry. -/
def applyAction (pending : List (String × OrderMeta)) : MonAction → List (String × OrderMeta)
  | .publishOutcome _ _ => pending
  | .popPending oid => pending.filter (fun kv => kv.1 ≠ oid)

/-- Count of outcome events a run publishes. -/
def publishCount (actions : List MonAction) : Nat :=
  (actions.filter (fun a => match a with | .publishOutcome _ _ => true | _ => false)).length

theorem monitorLoop_terminal (meta : OrderMeta) (oid : String) (clock : Nat → Int) :
    ∀ (polls : List PollInfo) (k : Nat),
      (∃ info ∈ polls, isTerminal info.status = true) →
      ∃ o, monitorLoop meta oid clock polls k
        = [MonAction.publishOutcome "trade_outcome" o, MonAction.popPending oid] := by
  intro polls
  induction polls with
  | nil =>
      intro k h
      simp at h
  | cons info rest ih =>
      intro k h
      by_cases ht : isTerminal info.status = true
      · refine ⟨⟨meta.signal_id, meta.symbol, meta.side, meta.entry, exitPx info,
          clock k, outcomeResult meta.side meta.entry (exitPx info)⟩, ?_⟩
        simp [monitorLoop, ht]
      · have hrest : ∃ i ∈ rest, isTerminal i.status = true := by
          obtain ⟨i, hi, hit⟩ := h
          rcases List.mem_cons.mp hi with hieq | himem
          · exact absurd (hieq ▸ hit) ht
          · exact ⟨i, himem, hit⟩
        obtain ⟨o, ho⟩ := ih (k + 1) hrest
        refine ⟨o, ?_⟩
        rw [show monitorLoop meta oid clock (info :: rest) k
              = monitorLoop meta oid clock rest (k + 1) by
            simp [monitorLoop, ht]]
        exact ho

theorem lookup_filter_ne (l : List (String × OrderMeta)) (oid : String) :
    (l.filter (fun kv => kv.1 ≠ oid)).lookup oid = none := by
  induction l with
  | nil => rfl
  | cons kv rest ih =>
      by_cases h : kv.1 = oid
      · simpa [List.filter_cons, h] using ih
      · simp only [List.filter_cons]
        rw [if_pos (by simp [h])]
        have hbe : (oid == kv.1) = false := beq_eq_false_iff_ne.mpr (fun e => h e.symm)
        simpa [List.lookup, hbe] using ih

/-- C3.  For a registered pending order whose poll sequence contains a
terminal status, `_monitor_order` performs exactly one publish of a
TradeOutcome on topic "trade_outcome" followed by the removal of the
order's pending entry — removal strictly after the publish — and after the
actions the order is absent from the pending map.  The action list having
exactly one publish means no order_id can yield two outcome events. -/
theorem monitor_publishes_once_then_removes
    (pending : List (String × OrderMeta)) (order_id : String) (meta : OrderMeta)
    (clock : Nat → Int) (polls : List PollInfo)
    (hreg : pending.lookup order_id = some meta)
    (hterm : ∃ info ∈ polls, isTerminal info.status = true) :
    ∃ o : TradeOutcome,
      monitor_order pending order_id clock polls
        = some [MonAction.publishOutcome "trade_outcome" o, MonAction.popPending order_id]
      ∧ publishCount
          [MonAction.publishOutcome "trade_outcome" o, MonAction.popPending order_id] = 1
      ∧ (List.foldl applyAction pending
          [MonAction.publishOutcome "trade_outcome" o,
           MonAction.popPending order_id]).lookup order_id = none := by
  obtain ⟨o, ho⟩ := monitorLoop_terminal meta order_id clock polls 0 hterm
  refine ⟨o, ?_, rfl, ?_⟩
  · simp [monitor_order, hreg, ho]
  · simp only [List.foldl_cons, List.foldl_nil, applyAction]
    exact lookup_filter_ne pending order_id

/-- C3 witness: order "12345" (buy at entry 100) with poll sequence
[open, open, filled@105]. -/
theorem monitor_publishes_once_then_removes_witness :
    ([("12345", (⟨"btc_usdt", "buy", 100, 7⟩ : OrderMeta))].lookup "12345"
        = some (⟨"btc_usdt", "buy", 100, 7⟩ : OrderMeta))
    ∧ (∃ info ∈ [(⟨"open", none, none⟩ : PollInfo), ⟨"open", none, none⟩,
          ⟨"filled", some 105, none⟩], isTerminal info.status = true)
    ∧ ∃ o : TradeOutcome,
        monitor_order [("12345", ⟨"btc_usdt", "buy", 100, 7⟩)] "12345" (fun _ => 0)
            [⟨"open", none, none⟩, ⟨"open", none, none⟩, ⟨"filled", some 105, none⟩]
          = some [MonAction.publishOutcome "trade_outcome" o, MonAction.popPending "12345"]
        ∧ publishCount
            [MonAction.publishOutcome "trade_outcome" o, MonAction.popPending "12345"] = 1
        ∧ (List.foldl applyAction [("12345", ⟨"btc_usdt", "buy", 100, 7⟩)]
            [MonAction.publishOutcome "trade_outcome" o,
             MonAction.popPending "12345"]).lookup "12345" = none :=
  ⟨by decide, by decide,
    monitor_publishes_once_then_removes _ "12345" ⟨"btc_usdt", "buy", 100, 7⟩ (fun _ => 0) _
      (by decide) (by decide)⟩

theorem monitorLoop_skip (meta : OrderMeta) (oid : String) (clock : Nat → Int) :
    ∀ (pre rest : List PollInfo) (k : Nat),
      (∀ p ∈ pre, isTerminal p.status = false) →
      monitorLoop meta oid clock (pre ++ rest) k = monitorLoop meta oid clock rest (k + pre.length) := by
  intro pre
  induction pre with
  | nil =>
      intro rest k _
      simp
  | cons p ps ih =>
      intro rest k hpre
      have hp : isTerminal p.status = false := hpre p (List.mem_cons_self p ps)
      rw [List.cons_append]
      rw [show monitorLoop meta oid clock (p :: (ps ++ rest)) k
            = monitorLoop meta oid clock (ps ++ rest) (k + 1) by
          simp [monitorLoop, hp]]
      rw [ih rest (k + 1) (fun q hq => hpre q (List.mem_cons_of_mem p hq))]
      congr 1
      simp [List.length_cons]
      omega

/-- C4.  When the monitor first observes a terminal status (after any run
of non-terminal polls), the published outcome carries the terminal poll's
exit price, and its `result` is "SUCCESS" exactly when the side is buy and
the exit exceeds the entry, or the side is sell and the exit is below the
entry; otherwise it is "FAILURE". -/
theorem monitor_result_rule (meta : OrderMeta) (order_id : String) (clock : Nat → Int)
    (pre post : List PollInfo) (info : PollInfo)
    (hpre : ∀ p ∈ pre, isTerminal p.status = false)
    (hinfo : isTerminal info.status = true) :
    monitorLoop meta order_id clock (pre ++ info :: post) 0
      = [MonAction.publishOutcome "trade_outcome"
          ⟨meta.signal_id, meta.symbol, meta.side, meta.entry, exitPx info,
            clock pre.length, outcomeResult meta.side meta.entry (exitPx info)⟩,
         MonAction.popPending order_id]
    ∧ (outcomeResult meta.side meta.entry (exitPx info) = "SUCCESS"
        ↔ ((meta.side = "buy" ∧ exitPx info > meta.entry)
            ∨ (meta.side = "sell" ∧ exitPx info < meta.entry))) := by
  constructor
  · rw [monitorLoop_skip meta order_id clock pre (info :: post) 0 hpre]
    simp [monitorLoop, hinfo]
  · unfold outcomeResult
    by_cases hc : (meta.side = "buy" ∧ exitPx info > meta.entry)
        ∨ (meta.side = "sell" ∧ exitPx info < meta.entry)
    · simp [hc]
    · simp only [hc, if_false]
      constructor
      · intro hfs
        exact absurd hfs (by decide)
      · intro hcc
        exact False.elim hcc

/-- C4 witness: a buy at entry 100 filled at 105 publishes SUCCESS with
exit 105; a sell at entry 100 filled at 105 publishes FAILURE. -/
theorem monitor_result_rule_witness :
    (monitorLoop ⟨"btc_usdt", "buy", 100, 1⟩ "11" (fun _ => 0)
        ([(⟨"open", none, none⟩ : PollInfo)] ++ (⟨"filled", some 105, none⟩ : PollInfo) :: []) 0
      = [MonAction.publishOutcome "trade_outcome"
          ⟨1, "btc_usdt", "buy", 100, exitPx ⟨"filled", some 105, none⟩, 0,
            outcomeResult "buy" 100 (exitPx ⟨"filled", some 105, none⟩)⟩,
         MonAction.popPending "11"])
    ∧ (monitorLoop ⟨"btc_usdt", "sell", 100, 2⟩ "22" (fun _ => 0)
        ([(⟨"open", none, none⟩ : PollInfo)] ++ (⟨"filled", some 105, none⟩ : PollInfo) :: []) 0
      = [MonAction.publishOutcome "trade_outcome"
          ⟨2, "btc_usdt", "sell", 100, exitPx ⟨"filled", some 105, none⟩, 0,
            outcomeResult "sell" 100 (exitPx ⟨"filled", some 105, none⟩)⟩,
         MonAction.popPending "22"])
    ∧ exitPx ⟨"filled", some 105, none⟩ = 105
    ∧ outcomeResult "buy" 100 (exitPx ⟨"filled", some 105, none⟩) = "SUCCESS"
    ∧ outcomeResult "sell" 100 (exitPx ⟨"filled", some 105, none⟩) = "FAILURE" := by
  refine ⟨?_, ?_, by decide, by decide, by decide⟩
  · exact (monitor_result_rule ⟨"btc_usdt", "buy", 100, 1⟩ "11" (fun _ => 0)
      [⟨"open", none, none⟩] [] ⟨"filled", some 105, none⟩ (by decide) (by decide)).1
  · exact (monitor_result_rule ⟨"btc_usdt", "sell", 100, 2⟩ "22" (fun _ => 0)
      [⟨"open", none, none⟩] [] ⟨"filled", some 105, none⟩ (by decide) (by decide)).1

/- ## Rate limiting: modules/rest_client.py, RateLimiter.acquire (lines 47-53)

`acquire` reads `now = time.time()`, pops entries from the front of the
deque while `now - timestamps[0] > 10`, and if the remaining window holds
at least `max_requests` entries sleeps `10 - (now - timestamps[0])`
seconds; it then appends the completion time (`now` plus the slept
duration, zero when it did not sleep).  An empty window together with
`len >= max_requests` would raise IndexError on `timestamps[0]` (`none`
here).  Timestamps are exact rationals. -/

namespace RateLimiter

/-- The `while ... popleft()` pruning loop (lines 49-50). -/
def prune (now : Rat) : List Rat → List Rat
  | [] => []
  | t :: ts => if now - t > 10 then prune now ts else t :: ts

/-- `RateLimiter.acquire`: returns the slept duration and the new window,
or `none` for the IndexError case. -/
def acquire (max_requests : Nat) (timestamps : List Rat) (now : Rat) :
    Option (Rat × List Rat) :=
  let ts := prune now timestamps
  if ts.length ≥ max_requests then
    match ts with
    | [] => none
    | t0 :: rest =>
        some (10 - (now - t0), (t0 :: rest) ++ [now + (10 - (now - t0))])
  else some (0, ts ++ [now])

end RateLimiter

theorem prune_young_of_sorted (now : Rat) :
    ∀ (ts : List Rat), List.Pairwise (· ≤ ·) ts →
      ∀ u ∈ RateLimiter.prune now ts, now - u ≤ 10 := by
  intro ts
  induction ts with
  | nil =>
      intro _ u hu
      simp [RateLimiter.prune] at hu
  | cons t rest ih =>
      intro hsorted u hu
      rw [List.pairwise_cons] at hsorted
      by_cases hold : now - t > 10
      · rw [show RateLimiter.prune now (t :: rest) = RateLimiter.prune now rest by
            simp [RateLimiter.prune, hold]] at hu
        exact ih hsorted.2 u hu
      · rw [show RateLimiter.prune now (t :: rest) = t :: rest by
            simp [RateLimiter.prune, hold]] at hu
        rcases List.mem_cons.mp hu with rfl | hmem
        · linarith [not_lt.mp hold]
        · have := hsorted.1 u hmem
          linarith [not_lt.mp hold]

theorem prune_keeps_young (now : Rat) :
    ∀ (ts : List Rat), ∀ u ∈ ts, now - u ≤ 10 → u ∈ RateLimiter.prune now ts := by
  intro ts
  induction ts with
  | nil =>
      intro u hu
      simp at hu
  | cons t rest ih =>
      intro u hu hyoung
      by_cases hold : now - t > 10
      · rw [show RateLimiter.prune now (t :: rest) = RateLimiter.prune now rest by
            simp [RateLimiter.prune, hold]]
        rcases List.mem_cons.mp hu with rfl | hmem
        · linarith
        · exact ih u hmem hyoung
      · rw [show RateLimiter.prune now (t :: rest) = t :: rest by
            simp [RateLimiter.prune, hold]]
        exact hu

/-- C6.  `RateLimiter.acquire` first prunes: in an append-ordered window
every entry older than 10 s is removed and every younger entry kept.  If
the pruned window is below the configured maximum, a new timestamp is
recorded with no suspension (slept duration 0); if it holds at least the
maximum, the caller sleeps exactly `10 − (now − oldest remaining)` seconds
before the new timestamp is recorded.  With max = 2, two acquires within
a 100 ms span never sleep and a third sleeps `10 − (t3 − t1) ≥ 9.9` s. -/
theorem rateLimiter_acquire_behavior (m : Nat) (ts : List Rat) (now t1 t2 t3 : Rat)
    (h12 : t1 ≤ t2) (h23 : t2 ≤ t3) (h31 : t3 - t1 ≤ 1/10) :
    ((RateLimiter.prune now ts).length < m →
        RateLimiter.acquire m ts now = some (0, RateLimiter.prune now ts ++ [now]))
    ∧ (∀ t0 rest, RateLimiter.prune now ts = t0 :: rest → m ≤ (t0 :: rest).length →
        RateLimiter.acquire m ts now
          = some (10 - (now - t0), (t0 :: rest) ++ [now + (10 - (now - t0))]))
    ∧ (List.Pairwise (· ≤ ·) ts → ∀ u ∈ RateLimiter.prune now ts, now - u ≤ 10)
    ∧ (∀ u ∈ ts, now - u ≤ 10 → u ∈ RateLimiter.prune now ts)
    ∧ RateLimiter.acquire 2 [] t1 = some (0, [t1])
    ∧ RateLimiter.acquire 2 [t1] t2 = some (0, [t1, t2])
    ∧ RateLimiter.acquire 2 [t1, t2] t3
        = some (10 - (t3 - t1), [t1, t2, t3 + (10 - (t3 - t1))])
    ∧ 99/10 ≤ 10 - (t3 - t1) := by
  have hy2 : ¬ (t2 - t1 > 10) := by linarith
  have hy3 : ¬ (t3 - t1 > 10) := by linarith
  refine ⟨?_, ?_, ?_, ?_, ?_, ?_, ?_, by linarith⟩
  · intro hlt
    unfold RateLimiter.acquire
    rw [if_neg (Nat.not_le.mpr hlt)]
  · intro t0 rest heq hge
    unfold RateLimiter.acquire
    rw [heq, if_pos hge]
  · exact fun hs => prune_young_of_sorted now ts hs
  · exact prune_keeps_young now ts
  · unfold RateLimiter.acquire
    rw [show RateLimiter.prune t1 [] = [] from rfl]
    rw [if_neg (by simp)]
    rfl
  · unfold RateLimiter.acquire
    rw [show RateLimiter.prune t2 [t1] = [t1] by simp [RateLimiter.prune, hy2]]
    rw [if_neg (by simp)]
    rfl
  · unfold RateLimiter.acquire
    rw [show RateLimiter.prune t3 [t1, t2] = [t1, t2] by
        simp [RateLimiter.prune, hy3]]
    rw [if_pos (by simp)]
    rfl

/-- C6 witness: window `[-20, -1]` pruned at `now = 0`, and the three
concrete acquires at times 0, 1/100, 2/100. -/
theorem rateLimiter_acquire_behavior_witness :
    ((0:Rat) ≤ 1/100 ∧ (1:Rat)/100 ≤ 2/100 ∧ (2:Rat)/100 - 0 ≤ 1/10)
    ∧ (((RateLimiter.prune 0 [-20, -1]).length < 2 →
        RateLimiter.acquire 2 [-20, -1] 0 = some (0, RateLimiter.prune 0 [-20, -1] ++ [0]))
      ∧ (∀ t0 rest, RateLimiter.prune 0 [-20, -1] = t0 :: rest → 2 ≤ (t0 :: rest).length →
          RateLimiter.acquire 2 [-20, -1] 0
            = some (10 - (0 - t0), (t0 :: rest) ++ [0 + (10 - (0 - t0))]))
      ∧ (List.Pairwise (· ≤ ·) ([-20, -1] : List Rat) →
          ∀ u ∈ RateLimiter.prune 0 [-20, -1], 0 - u ≤ 10)
      ∧ (∀ u ∈ ([-20, -1] : List Rat), 0 - u ≤ 10 → u ∈ RateLimiter.prune 0 [-20, -1])
      ∧ RateLimiter.acquire 2 [] 0 = some (0, [0])
      ∧ RateLimiter.acquire 2 [0] (1/100) = some (0, [0, 1/100])
      ∧ RateLimiter.acquire 2 [0, 1/100] (2/100)
          = some (10 - (2/100 - 0), [0, 1/100, 2/100 + (10 - (2/100 - 0))])
      ∧ (99:Rat)/10 ≤ 10 - (2/100 - 0)) :=
  ⟨⟨by norm_num, by norm_num, by norm_num⟩,
    rateLimiter_acquire_behavior 2 [-20, -1] 0 0 (1/100) (2/100)
      (by norm_num) (by norm_num) (by norm_num)⟩

/- ## EventBus: utils/event_bus.py, _EventBus (lines 14-43)

`subscribe` appends the handler to `self._subs[topic]`, so the list order
is subscription order.  `publish` enqueues `(topic, payload)`.  The
`_worker` task drains the queue in order and, for each item, calls every
handler of the topic in list order inside `try: ... except Exception`
(lines 35-40): a raising handler is logged and the loop moves on to the
next handler and the next queue item.  A handler is modelled by an id and
by which payloads make it raise. -/

structure Handler (P : Type) where
  id : Nat
  raisesOn : P → Bool

/-- What one `fn(payload)` call does. -/
inductive HandlerOutcome where
  | ok
  | raised
deriving DecidableEq, Repr

def runHandler {P : Type} (h : Handler P) (p : P) : HandlerOutcome :=
  if h.raisesOn p then .raised else .ok

/-- The `for fn in self._subs.get(topic, [])` loop.  When `catchErrors` is
true (the code's `try/except` at lines 35-40) a raised exception is
swallowed and the loop continues; were it false, the first raise would
abort the loop, as an uncaught Python exception would. -/
def dispatchHandlers {P : Type} (catchErrors : Bool) (p : P) :
    List (Handler P) → List (Nat × HandlerOutcome)
  | [] => []
  | h :: hs =>
    let r := runHandler h p
    if r = .raised && !catchErrors then [(h.id, r)]
    else (h.id, r) :: dispatchHandlers catchErrors p hs

/-- `_EventBus._worker`: drains the published queue in order, dispatching
each payload to the topic's handlers with the exception guard on. -/
def worker {P : Type} (subs : String → List (Handler P)) :
    List (String × P) → List (String × Nat × HandlerOutcome)
  | [] => []
  | (topic, p) :: rest =>
    (dispatchHandlers true p (subs topic)).map (fun e => (topic, e))
      ++ worker subs rest

theorem dispatchHandlers_caught {P : Type} (p : P) :
    ∀ hs : List (Handler P),
      dispatchHandlers true p hs = hs.map (fun h => (h.id, runHandler h p)) := by
  intro hs
  induction hs with
  | nil => rfl
  | cons h rest ih =>
      unfold dispatchHandlers
      rw [if_neg (by simp)]
      rw [ih]
      rfl

/-- C7.  The worker delivers every published payload to every handler
subscribed to its topic, in subscription order, whether or not earlier
handlers raised, and goes on to deliver all later publishes; in
particular, with two subscribers on one topic where the first raises on
the payload, the second is still invoked on that payload. -/
theorem eventBus_isolation :
    (∀ (P : Type) (subs : String → List (Handler P)) (queue : List (String × P)),
      worker subs queue
        = queue.flatMap (fun tp => (subs tp.1).map (fun h => (tp.1, h.id, runHandler h tp.2))))
    ∧ (∀ (p : Nat),
        worker (fun t => if t = "X"
            then [⟨1, fun _ => true⟩, ⟨2, fun _ => false⟩] else []) [("X", p)]
          = [("X", 1, .raised), ("X", 2, .ok)]) := by
  constructor
  · intro P subs queue
    induction queue with
    | nil => rfl
    | cons tp rest ih =>
        obtain ⟨topic, p⟩ := tp
        unfold worker
        rw [dispatchHandlers_caught, ih, List.flatMap_cons]
        simp [List.map_map, Function.comp]
  · intro p
    rfl

/- ## Frame routing: modules/websocket_client_real_time.py,
   WebSocketClient._handle_ws_message (lines 290-332), and
   utils/timeframe.py, normalize_tf

JSON values as the decoder produces them.  A raw frame is `none` when
`json.loads` raises (malformed), otherwise `some` of the parsed value. -/

inductive JVal where
  | null
  | jbool (b : Bool)
  | jnum (n : Int)
  | jstr (s : String)
  | jarr (elems : List JVal)
  | jobj (fields : List (String × JVal))

/-- First-match association lookup, python `dict.get(key)` on a dict whose
keys are unique. -/
def jlookup : List (String × JVal) → String → Option JVal
  | [], _ => none
  | (k, v) :: rest, key => if k = key then some v else jlookup rest key

/-- `dict.get(key, default)`. -/
def jget (fields : List (String × JVal)) (key : String) (default : JVal) : JVal :=
  (jlookup fields key).getD default

/-- Python truthiness of a JSON value. -/
def truthy : JVal → Bool
  | .null => false
  | .jbool b => b
  | .jnum n => n != 0
  | .jstr s => s != ""
  | .jarr xs => !xs.isEmpty
  | .jobj fs => !fs.isEmpty

/- Structural equality of JSON values (python `==` on decoded JSON). -/
mutual

/-- Structural equality of two JSON values. -/
def jeq : JVal → JVal → Bool
  | .null, .null => true
  | .jbool a, .jbool b => a == b
  | .jnum a, .jnum b => a == b
  | .jstr a, .jstr b => a == b
  | .jarr xs, .jarr ys => jeqList xs ys
  | .jobj fs, .jobj gs => jeqFields fs gs
  | _, _ => false

def jeqList : List JVal → List JVal → Bool
  | [], [] => true
  | x :: xs, y :: ys => jeq x y && jeqList xs ys
  | _, _ => false

def jeqFields : List (String × JVal) → List (String × JVal) → Bool
  | [], [] => true
  | (k1, v1) :: fs, (k2, v2) :: gs => k1 == k2 && jeq v1 v2 && jeqFields fs gs
  | _, _ => false

end

/-- utils/timeframe.py `normalize_tf`: lowercase, then first alias bucket
containing the value, else the value itself. -/
def normalize_tf (tf : String) : String :=
  let t := tf.toLower
  if ["1m", "1min", "minute1"].contains t then "1m"
  else if ["5m", "5min", "minute5"].contains t then "5m"
  else if ["15m", "15min", "minute15"].contains t then "15m"
  else if ["30m", "30min", "minute30"].contains t then "30m"
  else if ["1h", "h1", "hour1"].contains t then "1h"
  else if ["4h", "h4", "hour4"].contains t then "4h"
  else if ["8h", "hour8"].contains t then "8h"
  else if ["12h", "hour12"].contains t then "12h"
  else if ["1d", "day1"].contains t then "1d"
  else if ["1w", "week1"].contains t then "1w"
  else if ["1mth", "month1"].contains t then "1mth"
  else t

/-- The router-owned state: `self.df_store` (keyed by
(symbol, canonical timeframe), holding each window's rows) and
`self.order_books` (keyed by the frame's symbol value). -/
structure RouterState where
  df_store : List ((String × String) × List JVal)
  order_books : List (JVal × JVal)

/-- `self.df_store.get(key)`. -/
def dfLookup : List ((String × String) × List JVal) → String × String → Option (List JVal)
  | [], _ => none
  | (k, w) :: rest, key => if k = key then some w else dfLookup rest key

/-- Python dict assignment `d[key] = v`: replace in place, else append. -/
def dfSet : List ((String × String) × List JVal) → String × String → List JVal →
    List ((String × String) × List JVal)
  | [], key, v => [(key, v)]
  | (k, w) :: rest, key, v =>
      if k = key then (key, v) :: rest else (k, w) :: dfSet rest key v

/-- `self.order_books[symbol] = data` (keys compared as JSON values). -/
def obSet : List (JVal × JVal) → JVal → JVal → List (JVal × JVal)
  | [], key, v => [(key, v)]
  | (k, w) :: rest, key, v =>
      if jeq k key then (key, v) :: rest else (k, w) :: obSet rest key v

/-- `msg.get("status") == "error"`. -/
def isErrorStatus : Option JVal → Bool
  | some (.jstr s) => s == "error"
  | _ => false

/-- `subscribe_type == s` for a string literal `s`. -/
def isStr : JVal → String → Bool
  | .jstr x, s => x == s
  | _, _ => false

/-- `isinstance(sub, str) and sub.startswith("ticker.")`. -/
def isTickerSub : JVal → Bool
  | .jstr x => x.startsWith "ticker."
  | _ => false

/-- The kbar/depth branches (lines 309-323).  The indicator recompute
`run_all(latest_only)` is the delegated numeric collaborator, a parameter
here; the window update itself is `IndicatorCalculator.update`.  Where the
Python would raise (`data.get` on a non-dict, `.lower()` on a truthy
non-string kbar code), the exception is caught by the queue consumer
before any mutation, so the state is returned unchanged. -/
def routeDataFrame (runAll : Bool → List JVal → List JVal) (st : RouterState)
    (sub data : JVal) (kbar_tf : Option JVal) : RouterState :=
  if isStr sub "kbar" then
    match data with
    | .jobj dflds =>
      match (if truthy (kbar_tf.getD .null) then kbar_tf.getD .null else .jstr "") with
      | .jstr tfRaw =>
          match jlookup dflds "symbol" with
          | some (.jstr symS) =>
              match dfLookup st.df_store (symS, normalize_tf tfRaw) with
              | some window =>
                  let newWin := runAll false (runAll true (IndicatorCalculator.update window data))
                  { st with df_store := dfSet st.df_store (symS, normalize_tf tfRaw) newWin }
              | none => st
          | _ => st
      | _ => st
    | _ => st
  else if isStr sub "depth" then
    match data with
    | .jobj dflds =>
      let symbol := (jlookup dflds "symbol").getD .null
      if truthy symbol then
        { st with order_books := obSet st.order_books symbol data }
      else st
    | _ => st
  else st

/-- `WebSocketClient._handle_ws_message`: returns the state after the
frame together with the messages written to the socket and the payloads
forwarded to the external ticker callback.  `raw = none` is a frame
`json.loads` rejects (logged and dropped); a parsed non-dict frame makes
`msg.get` raise, which the queue consumer catches with no effect. -/
def handle_ws_message (runAll : Bool → List JVal → List JVal) (has_callback : Bool)
    (st : RouterState) (raw : Option JVal) : RouterState × List JVal × List JVal :=
  match raw with
  | none => (st, [], [])
  | some msg =>
    match msg with
    | .jobj fields =>
      let ping_val := jget fields "ping" .null
      if truthy ping_val then
        (st, [.jobj [("action", .jstr "pong"), ("pong", ping_val)]], [])
      else if isErrorStatus (jlookup fields "status") then
        (st, [], [])
      else
        let sub := jget fields "subscribe" (.jstr "")
        let data := jget fields "data" (.jobj [])
        let st1 := routeDataFrame runAll st sub data (jlookup fields "kbar")
        let calls := if has_callback && isTickerSub sub then [msg] else []
        (st1, [], calls)
    | _ => (st, [], [])

/-- C8 (as stated, refuted).  A frame carrying both a truthy `ping` field
and `status = "error"` is an error-status frame, yet the router answers it
with a pong — the ping check at line 297 runs before the status check at
line 302 — so "no message is sent in response" fails. -/
theorem router_error_frame_sends_pong :
    handle_ws_message (fun _ w => w) false ⟨[], []⟩
        (some (.jobj [("ping", .jstr "1"), ("status", .jstr "error")]))
      = (⟨[], []⟩, [.jobj [("action", .jstr "pong"), ("pong", .jstr "1")]], [])
    ∧ ([JVal.jobj [("action", .jstr "pong"), ("pong", .jstr "1")]] : List JVal) ≠ [] := by
  refine ⟨rfl, ?_⟩
  intro h
  exact List.noConfusion h

/-- C8 (amended).  A malformed frame, and an error-status frame whose
`ping` field is absent or falsy, are dropped with no state mutation:
`df_store` and `order_books` are exactly as before, nothing is written to
the socket, and the external callback is not invoked. -/
theorem router_drop_no_mutation (runAll : Bool → List JVal → List JVal) (hcb : Bool)
    (st : RouterState) (raw : Option JVal)
    (h : raw = none
        ∨ ∃ fields, raw = some (.jobj fields)
            ∧ truthy (jget fields "ping" .null) = false
            ∧ isErrorStatus (jlookup fields "status") = true) :
    handle_ws_message runAll hcb st raw = (st, [], []) := by
  rcases h with rfl | ⟨fields, rfl, hping, herr⟩
  · rfl
  · simp [handle_ws_message, hping, herr]

/-- C8 witness: an error-status frame without a ping field, against a
non-empty router state. -/
theorem router_drop_no_mutation_witness :
    (truthy (jget [("status", JVal.jstr "error")] "ping" .null) = false
      ∧ isErrorStatus (jlookup [("status", JVal.jstr "error")] "status") = true)
    ∧ handle_ws_message (fun _ w => w) true
        ⟨[(("eth_btc", "1m"), [JVal.null])], [(JVal.jstr "eth_btc", JVal.jobj [])]⟩
        (some (.jobj [("status", .jstr "error")]))
      = (⟨[(("eth_btc", "1m"), [JVal.null])], [(JVal.jstr "eth_btc", JVal.jobj [])]⟩, [], []) :=
  ⟨⟨rfl, rfl⟩,
    router_drop_no_mutation (fun _ w => w) true
      ⟨[(("eth_btc", "1m"), [JVal.null])], [(JVal.jstr "eth_btc", JVal.jobj [])]⟩
      (some (.jobj [("status", .jstr "error")]))
      (Or.inr ⟨[("status", .jstr "error")], rfl, rfl, rfl⟩)⟩

/- ## Concurrent acquire: modules/rest_client.py, RateLimiter.acquire
   (lines 47-53) under asyncio's cooperative scheduling

The only suspension point inside `acquire` is `await asyncio.sleep(...)`.
So the prune, the capacity check and — on the non-waiting path — the
append run as one atomic step, and a waiting caller's append after waking
(the code never re-checks after sleeping) is another atomic step.
Contending callers all observe the same `now`; a scheduler picks which
caller runs its next atomic step. -/

inductive CallerPhase where
  | start
  | waiting
  | finished (waited : Bool)
deriving DecidableEq, Repr

/-- One atomic step of a caller inside `acquire`, transforming the shared
window. -/
def stepCaller (max_requests : Nat) (now : Rat) (w : List Rat) :
    CallerPhase → List Rat × CallerPhase
  | .start =>
      let ts := RateLimiter.prune now w
      if ts.length ≥ max_requests then (ts, .waiting)
      else (ts ++ [now], .finished false)
  | .waiting => (w ++ [now], .finished true)
  | .finished b => (w, .finished b)

/-- Run a schedule of caller indices, each executing its next atomic step
on the shared window. -/
def runSched (max_requests : Nat) (now : Rat) :
    List Nat → List Rat → List CallerPhase → List Rat × List CallerPhase
  | [], w, phases => (w, phases)
  | i :: rest, w, phases =>
    match phases[i]? with
    | none => runSched max_requests now rest w phases
    | some ph =>
        let r := stepCaller max_requests now w ph
        runSched max_requests now rest r.1 (phases.set i r.2)

/-- 1 when the phase is "completed without ever waiting". -/
def dpOf : CallerPhase → Nat
  | .finished false => 1
  | _ => 0

/-- How many callers passed the capacity check without waiting. -/
def directPasses : List CallerPhase → Nat
  | [] => 0
  | ph :: rest => dpOf ph + directPasses rest

theorem prune_idem (now : Rat) :
    ∀ w : List Rat, RateLimiter.prune now (RateLimiter.prune now w)
      = RateLimiter.prune now w := by
  intro w
  induction w with
  | nil => rfl
  | cons t ts ih =>
      by_cases hold : now - t > 10
      · rw [show RateLimiter.prune now (t :: ts) = RateLimiter.prune now ts by
            simp [RateLimiter.prune, hold]]
        exact ih
      · rw [show RateLimiter.prune now (t :: ts) = t :: ts by
            simp [RateLimiter.prune, hold]]
        simp [RateLimiter.prune, hold]

theorem prune_append_now (now : Rat) :
    ∀ w : List Rat, RateLimiter.prune now (w ++ [now])
      = RateLimiter.prune now w ++ [now] := by
  intro w
  induction w with
  | nil => simp [RateLimiter.prune]
  | cons t ts ih =>
      by_cases hold : now - t > 10
      · rw [List.cons_append]
        rw [show RateLimiter.prune now (t :: (ts ++ [now]))
              = RateLimiter.prune now (ts ++ [now]) by simp [RateLimiter.prune, hold]]
        rw [show RateLimiter.prune now (t :: ts) = RateLimiter.prune now ts by
            simp [RateLimiter.prune, hold]]
        exact ih
      · rw [List.cons_append]
        rw [show RateLimiter.prune now (t :: (ts ++ [now])) = t :: (ts ++ [now]) by
            simp [RateLimiter.prune, hold]]
        rw [show RateLimiter.prune now (t :: ts) = t :: ts by
            simp [RateLimiter.prune, hold]]
        rfl

theorem directPasses_set :
    ∀ (l : List CallerPhase) (i : Nat) (ph ph' : CallerPhase),
      l[i]? = some ph →
      directPasses (l.set i ph') + dpOf ph = directPasses l + dpOf ph' := by
  intro l
  induction l with
  | nil =>
      intro i ph ph' h
      simp at h
  | cons a rest ih =>
      intro i ph ph' h
      cases i with
      | zero =>
          rw [List.getElem?_cons_zero] at h
          injection h with h
          subst h
          simp only [List.set, directPasses]
          omega
      | succ j =>
          rw [List.getElem?_cons_succ] at h
          simp only [List.set, directPasses]
          have := ih j ph ph' h
          omega

theorem directPasses_replicate_start :
    ∀ n : Nat, directPasses (List.replicate n .start) = 0 := by
  intro n
  induction n with
  | zero => rfl
  | succ k ih => simp [List.replicate, directPasses, dpOf, ih]

/-- Invariant tying the shared window to how many callers have completed
without waiting: at most one direct pass ever, the pruned window never
shrinks below one-less-than-capacity, and once a direct pass happened the
window is at capacity. -/
def rlInv (m : Nat) (now : Rat) (w : List Rat) (phases : List CallerPhase) : Prop :=
  m - 1 ≤ (RateLimiter.prune now w).length
  ∧ directPasses phases ≤ 1
  ∧ (1 ≤ directPasses phases → m ≤ (RateLimiter.prune now w).length)

theorem stepCaller_inv (m : Nat) (now : Rat) (w : List Rat) (ph : CallerPhase)
    (phases : List CallerPhase) (i : Nat) (hget : phases[i]? = some ph)
    (hinv : rlInv m now w phases) :
    rlInv m now (stepCaller m now w ph).1 (phases.set i (stepCaller m now w ph).2) := by
  obtain ⟨h1, h2, h3⟩ := hinv
  have hset := directPasses_set phases i ph
  cases ph with
  | start =>
      by_cases hfull : (RateLimiter.prune now w).length ≥ m
      · have e1 : (stepCaller m now w .start).1 = RateLimiter.prune now w := by
          simp [stepCaller, hfull]
        have e2 : (stepCaller m now w .start).2 = .waiting := by
          simp [stepCaller, hfull]
        rw [e1, e2]
        have hdp := hset .waiting hget
        simp only [dpOf] at hdp
        refine ⟨?_, by omega, ?_⟩
        · rw [prune_idem]
          exact h1
        · intro hone
          rw [prune_idem]
          exact h3 (by omega)
      · have e1 : (stepCaller m now w .start).1 = RateLimiter.prune now w ++ [now] := by
          simp [stepCaller, hfull]
        have e2 : (stepCaller m now w .start).2 = .finished false := by
          simp [stepCaller, hfull]
        rw [e1, e2]
        have hdp := hset (.finished false) hget
        simp only [dpOf] at hdp
        have hlen : (RateLimiter.prune now (RateLimiter.prune now w ++ [now])).length
            = (RateLimiter.prune now w).length + 1 := by
          rw [prune_append_now, prune_idem, List.length_append]
          rfl
        have hzero : directPasses phases = 0 := by
          by_contra hne
          have := h3 (by omega)
          omega
        refine ⟨by omega, by omega, ?_⟩
        intro _
        omega
  | waiting =>
      have e1 : (stepCaller m now w .waiting).1 = w ++ [now] := rfl
      have e2 : (stepCaller m now w .waiting).2 = .finished true := rfl
      rw [e1, e2]
      have hdp := hset (.finished true) hget
      simp only [dpOf] at hdp
      have hlen : (RateLimiter.prune now (w ++ [now])).length
          = (RateLimiter.prune now w).length + 1 := by
        rw [prune_append_now, List.length_append]
        rfl
      refine ⟨by omega, by omega, ?_⟩
      intro hone
      have := h3 (by omega)
      omega
  | finished b =>
      have e1 : (stepCaller m now w (.finished b)).1 = w := rfl
      have e2 : (stepCaller m now w (.finished b)).2 = .finished b := rfl
      rw [e1, e2]
      have hdp := hset (.finished b) hget
      refine ⟨h1, by omega, ?_⟩
      intro hone
      exact h3 (by omega)

theorem runSched_inv (m : Nat) (now : Rat) :
    ∀ (schedule : List Nat) (w : List Rat) (phases : List CallerPhase),
      rlInv m now w phases →
      rlInv m now (runSched m now schedule w phases).1
        (runSched m now schedule w phases).2 := by
  intro schedule
  induction schedule with
  | nil =>
      intro w phases h
      exact h
  | cons i rest ih =>
      intro w phases h
      unfold runSched
      cases hget : phases[i]? with
      | none => exact ih w phases h
      | some ph => exact ih _ _ (stepCaller_inv m now w ph phases i hget h)

/-- C9.  When several callers run `acquire` concurrently over one shared
window that has exactly one free slot after pruning, every interleaving of
their atomic steps lets at most one of them pass the capacity check
without waiting: the check-and-append of the non-waiting path contains no
suspension point, so it is serialized by the event loop and no two callers
can both act on the same stale window. -/
theorem rateLimiter_check_serialized (m n : Nat) (now : Rat) (w0 : List Rat)
    (schedule : List Nat)
    (hm : 1 ≤ m) (hslot : (RateLimiter.prune now w0).length = m - 1) :
    directPasses (runSched m now schedule w0 (List.replicate n .start)).2 ≤ 1 := by
  have hinv : rlInv m now w0 (List.replicate n .start) := by
    refine ⟨by omega, ?_, ?_⟩
    · rw [directPasses_replicate_start]
      omega
    · rw [directPasses_replicate_start]
      omega
  exact (runSched_inv m now schedule w0 (List.replicate n .start) hinv).2.1

/-- C9 witness: capacity 2, window holding one fresh entry, two
concurrent callers scheduled one after the other. -/
theorem rateLimiter_check_serialized_witness :
    (1 ≤ 2 ∧ (RateLimiter.prune 0 [-5]).length = 2 - 1)
    ∧ directPasses (runSched 2 0 [0, 1] [-5] (List.replicate 2 .start)).2 ≤ 1 :=
  ⟨⟨by omega, by norm_num [RateLimiter.prune]⟩,
    rateLimiter_check_serialized 2 2 0 [-5] [0, 1] (by omega)
      (by norm_num [RateLimiter.prune])⟩

/- ## Request signing: utils/signing.py, generate_signature (lines 29-47)

A parameter dict is an insertion-ordered association list with unique
keys; `sorted(params)` sorts its keys lexicographically.  The byte-level
hash primitives — `hashlib.md5(...).hexdigest().upper()` and
`hmac.new(secret, md5_hex, sha256).hexdigest()` — are pure functions of
their string inputs and appear as the parameters `md5_hex_upper` and
`hmac_sha256_hex`, so everything proved below holds for the real
primitives. -/

def DEFAULT_SIG_METHOD : String := "HmacSHA256"

/-- `params[k]` / `"sign" in params` on a python dict. -/
def dictLookup : List (String × String) → String → Option String
  | [], _ => none
  | (k, v) :: rest, key => if k = key then some v else dictLookup rest key

/-- `generate_signature(params, secret_key, method=...)`: drop any `sign`
entry, join the sorted `k=v` pairs with `&`, MD5 then HMAC-SHA256; an
unsupported method raises NotImplementedError (`none`). -/
def generate_signature (md5_hex_upper : String → String)
    (hmac_sha256_hex : String → String → String)
    (params : List (String × String)) (secret_key : String)
    (method : String := DEFAULT_SIG_METHOD) : Option String :=
  let params := if params.any (fun kv => kv.1 = "sign")
    then params.filter (fun kv => kv.1 ≠ "sign") else params
  let ordered := String.intercalate "&"
    (((params.map Prod.fst).mergeSort).map
      (fun k => k ++ "=" ++ (dictLookup params k).getD ""))
  let md5_hex := md5_hex_upper ordered
  if method.toUpper = "HMACSHA256" then some (hmac_sha256_hex secret_key md5_hex)
  else none

theorem dictLookup_cons (k0 v0 key : String) (rest : List (String × String)) :
    dictLookup ((k0, v0) :: rest) key = if k0 = key then some v0 else dictLookup rest key := rfl

theorem dictLookup_filter_sign_self (p : List (String × String)) :
    dictLookup (p.filter (fun kv => kv.1 ≠ "sign")) "sign" = none := by
  induction p with
  | nil => rfl
  | cons kv rest ih =>
      obtain ⟨k0, v0⟩ := kv
      rw [List.filter_cons]
      by_cases h0 : k0 = "sign"
      · rw [if_neg (by simp [h0])]
        exact ih
      · rw [if_pos (by simp [h0])]
        rw [dictLookup_cons, if_neg h0]
        exact ih

theorem dictLookup_filter_sign_ne (k : String) (hk : k ≠ "sign") :
    ∀ p : List (String × String),
      dictLookup (p.filter (fun kv => kv.1 ≠ "sign")) k = dictLookup p k := by
  intro p
  induction p with
  | nil => rfl
  | cons kv rest ih =>
      obtain ⟨k0, v0⟩ := kv
      rw [List.filter_cons]
      by_cases h0 : k0 = "sign"
      · rw [if_neg (by simp [h0])]
        rw [ih]
        rw [dictLookup_cons]
        rw [if_neg (by rw [h0]; exact fun e => hk e.symm)]
      · rw [if_pos (by simp [h0])]
        rw [dictLookup_cons, dictLookup_cons]
        by_cases he : k0 = k
        · rw [if_pos he, if_pos he]
        · rw [if_neg he, if_neg he]
          exact ih

theorem dictLookup_isSome_iff (k : String) :
    ∀ p : List (String × String),
      (dictLookup p k).isSome = true ↔ k ∈ p.map Prod.fst := by
  intro p
  induction p with
  | nil => simp [dictLookup]
  | cons kv rest ih =>
      obtain ⟨k0, v0⟩ := kv
      rw [dictLookup_cons]
      by_cases h : k0 = k
      · simp [h]
      · rw [if_neg h]
        rw [ih]
        simp only [List.map_cons, List.mem_cons]
        constructor
        · exact Or.inr
        · intro hmem
          rcases hmem with heq | hmem
          · exact absurd heq.symm h
          · exact hmem

theorem sorted_keys_map_eq (q1 q2 : List (String × String))
    (h1 : (q1.map Prod.fst).Nodup) (h2 : (q2.map Prod.fst).Nodup)
    (hsame : ∀ k, dictLookup q1 k = dictLookup q2 k) :
    ((q1.map Prod.fst).mergeSort).map (fun k => k ++ "=" ++ (dictLookup q1 k).getD "")
      = ((q2.map Prod.fst).mergeSort).map (fun k => k ++ "=" ++ (dictLookup q2 k).getD "") := by
  have hmem : ∀ k, k ∈ q1.map Prod.fst ↔ k ∈ q2.map Prod.fst := by
    intro k
    rw [← dictLookup_isSome_iff, ← dictLookup_isSome_iff, hsame]
  have hperm : (q1.map Prod.fst).Perm (q2.map Prod.fst) :=
    (List.perm_ext_iff_of_nodup h1 h2).mpr hmem
  have hs1 : List.Sorted (· ≤ ·) ((q1.map Prod.fst).mergeSort) :=
    List.sorted_mergeSort' _
  have hs2 : List.Sorted (· ≤ ·) ((q2.map Prod.fst).mergeSort) :=
    List.sorted_mergeSort' _
  have hkeys : (q1.map Prod.fst).mergeSort = (q2.map Prod.fst).mergeSort :=
    List.eq_of_perm_of_sorted
      ((List.mergeSort_perm _ _).trans (hperm.trans (List.mergeSort_perm _ _).symm)) hs1 hs2
  rw [hkeys]
  apply List.map_congr_left
  intro a _
  rw [hsame]

theorem generate_signature_filter_sign (md5_hex_upper : String → String)
    (hmac_sha256_hex : String → String → String)
    (p : List (String × String)) (secret : String) :
    generate_signature md5_hex_upper hmac_sha256_hex p secret
      = generate_signature md5_hex_upper hmac_sha256_hex
          (p.filter (fun kv => kv.1 ≠ "sign")) secret := by
  have hnosign : (p.filter (fun kv => kv.1 ≠ "sign")).any (fun kv => kv.1 = "sign") = false := by
    rw [Bool.eq_false_iff]
    intro hany
    obtain ⟨kv, hmem, hkv⟩ := List.any_eq_true.mp hany
    have := List.of_mem_filter hmem
    simp at this hkv
    exact this hkv
  unfold generate_signature
  rw [hnosign]
  simp only [Bool.false_eq_true, if_false]
  by_cases hany : p.any (fun kv => kv.1 = "sign") = true
  · rw [hany, if_pos rfl]
  · rw [Bool.eq_false_iff.mpr hany]
    simp only [Bool.false_eq_true, if_false]
    rw [List.filter_eq_self.mpr ?_]
    intro kv hmem
    simp only [decide_eq_true_eq]
    intro hsign
    exact hany (List.any_eq_true.mpr ⟨kv, hmem, by simp [hsign]⟩)

/-- C10.  With the secret fixed, `generate_signature` depends only on the
key-to-value mapping outside the reserved key `sign`: any two insertion
orders of the same pairs sign identically, and a pre-existing `sign`
entry — present, absent, or changed — never affects the result, because
it is stripped before the keys are sorted and joined. -/
theorem generate_signature_mapping_determined (md5_hex_upper : String → String)
    (hmac_sha256_hex : String → String → String) (secret : String)
    (p1 p2 : List (String × String))
    (h1 : (p1.map Prod.fst).Nodup) (h2 : (p2.map Prod.fst).Nodup)
    (hsame : ∀ k, k ≠ "sign" → dictLookup p1 k = dictLookup p2 k) :
    generate_signature md5_hex_upper hmac_sha256_hex p1 secret
      = generate_signature md5_hex_upper hmac_sha256_hex p2 secret := by
  rw [generate_signature_filter_sign md5_hex_upper hmac_sha256_hex p1 secret,
      generate_signature_filter_sign md5_hex_upper hmac_sha256_hex p2 secret]
  have hsame' : ∀ k, dictLookup (p1.filter (fun kv => kv.1 ≠ "sign")) k
      = dictLookup (p2.filter (fun kv => kv.1 ≠ "sign")) k := by
    intro k
    by_cases hk : k = "sign"
    · rw [hk, dictLookup_filter_sign_self, dictLookup_filter_sign_self]
    · rw [dictLookup_filter_sign_ne k hk, dictLookup_filter_sign_ne k hk]
      exact hsame k hk
  have hn1 : ((p1.filter (fun kv => kv.1 ≠ "sign")).map Prod.fst).Nodup :=
    h1.sublist (List.Sublist.map Prod.fst (List.filter_sublist p1))
  have hn2 : ((p2.filter (fun kv => kv.1 ≠ "sign")).map Prod.fst).Nodup :=
    h2.sublist (List.Sublist.map Prod.fst (List.filter_sublist p2))
  have hno1 : (p1.filter (fun kv => kv.1 ≠ "sign")).any (fun kv => kv.1 = "sign") = false := by
    rw [Bool.eq_false_iff]
    intro hany
    obtain ⟨kv, hmem, hkv⟩ := List.any_eq_true.mp hany
    have := List.of_mem_filter hmem
    simp at this hkv
    exact this hkv
  have hno2 : (p2.filter (fun kv => kv.1 ≠ "sign")).any (fun kv => kv.1 = "sign") = false := by
    rw [Bool.eq_false_iff]
    intro hany
    obtain ⟨kv, hmem, hkv⟩ := List.any_eq_true.mp hany
    have := List.of_mem_filter hmem
    simp at this hkv
    exact this hkv
  unfold generate_signature
  rw [hno1, hno2]
  simp only [Bool.false_eq_true, if_false]
  rw [sorted_keys_map_eq _ _ hn1 hn2 hsame']

/-- C10 witness: the same three pairs in two insertion orders, one of the
dicts carrying an extra `sign` entry. -/
theorem generate_signature_mapping_determined_witness :
    ((([("symbol", "eth_btc"), ("amount", "10"), ("sign", "zz")]
        : List (String × String)).map Prod.fst).Nodup
      ∧ (([("amount", "10"), ("symbol", "eth_btc")]
        : List (String × String)).map Prod.fst).Nodup)
    ∧ generate_signature (fun s => s) (fun key msg => key ++ "|" ++ msg)
        [("symbol", "eth_btc"), ("amount", "10"), ("sign", "zz")] "sec"
      = generate_signature (fun s => s) (fun key msg => key ++ "|" ++ msg)
        [("amount", "10"), ("symbol", "eth_btc")] "sec" :=
  ⟨⟨by decide, by decide⟩,
    generate_signature_mapping_determined (fun s => s) (fun key msg => key ++ "|" ++ msg)
      "sec" _ _ (by decide) (by decide)
      (by
        intro k hk
        by_cases hs : k = "symbol"
        · subst hs
          decide
        · by_cases ha : k = "amount"
          · subst ha
            decide
          · simp [dictLookup, Ne.symm hs, Ne.symm ha, Ne.symm hk])⟩
